import Mathlib

/-!
Verification development for the image_resize_bot repository.

The repository contains two near-duplicate bot implementations,
`for_both.py` and `image_resize.py`.  Each one exposes an image
size-fitting engine (`ImageProcessor.process_image`), unit-conversion and
display helpers, a size-range regular expression, and a message handler
maintaining a per-user `user_states` dictionary.

Modelling choices, recorded here once:

* Raw byte strings are `Bytes := List Nat`; only their lengths matter to
  the control flow being verified.
* The PIL imaging library is external to the repository, so it is
  abstracted as an environment `PILEnv`: `dims` models `Image.open`
  reading the pixel dimensions, `save` models `img.save(io, format=f,
  quality=q)`, `saveMeta` models the same call with a bloat `Comment`
  keyword of a given length, and `saveNoOpt` the call with
  `optimize=False`.  Theorems quantify over all such environments.
* PIL image values are a free term algebra `Img` recording exactly the
  geometric operations the Python code performs (`decoded` for
  `Image.open`, `convertRGB`, `resize`, `expand` for `ImageOps.expand`,
  `tile` for the vertical duplicate technique), with `width`/`height`
  computed as PIL would.
* Python float arithmetic on scale factors is modelled exactly over the
  rationals: the dimensions after k steps of scaling by 1.2 are
  `w * 12^k / 10^k` with Nat floor division, and the while-loop guard
  `scale_factor <= 4.0` becomes `12^k <= 4 * 10^k`.  IEEE rounding can
  differ from the exact value by at most one pixel in rare cases; no
  claim below depends on exact pixel counts.
* Size bounds coming from `convert_to_bytes` are Python floats and may be
  fractional, so they are rationals; encoded lengths are Nats, compared
  after coercion.
* Bounded `while` loops become fuel recursion.  The fuel is chosen
  strictly larger than the number of iterations the loop guard permits
  (for the shrink loops the width strictly decreases while it exceeds
  100, so `width + 1` suffices), hence the fuel never runs out before the
  guard fails and the model agrees with the source loop.
* The traced variants additionally return a list of `Ev` events: one
  `Ev.growth name` per growth technique attempt (these coincide with the
  `logger.info` calls in `increase_image_size`) and one `Ev.shrink w h`
  per iteration of the reduction loop.  The untraced functions are the
  first projections of the traced ones.
-/

namespace ImgBot

/-! ### Kernel-reducible rational arithmetic

The `Rat.mul`, `Rat.add`, `Rat.sub` and `Rat.inv` operations of the standard
library are irreducible, which blocks `decide` on concrete runs of the
embedded code.  The definitions below compute the same values through
`Rat.divInt`, which does reduce; the bridge lemmas restate them as the
ordinary field operations for use in proofs. -/

def qmul (a b : ℚ) : ℚ := Rat.divInt (a.num * b.num) ((a.den : Int) * b.den)

def qdiv (a b : ℚ) : ℚ := Rat.divInt (a.num * ((b.den : Int))) ((a.den : Int) * b.num)

def qadd (a b : ℚ) : ℚ :=
  Rat.divInt (a.num * ((b.den : Int)) + b.num * ((a.den : Int))) ((a.den : Int) * b.den)

def qsub (a b : ℚ) : ℚ :=
  Rat.divInt (a.num * ((b.den : Int)) - b.num * ((a.den : Int))) ((a.den : Int) * b.den)

abbrev Bytes := List Nat

deriving instance DecidableEq for Except

/-- PIL format names stored in `SUPPORTED_FORMATS` (values of the dict). -/
inductive Fmt where
  | JPEG | PNG | WEBP
deriving DecidableEq

/-- The dict `SUPPORTED_FORMATS = {'JPG': 'JPEG', 'JPEG': 'JPEG', 'PNG': 'PNG', 'WEBP': 'WEBP'}`
as a lookup from the user-facing format token. -/
def supportedFormats : String → Option Fmt
  | "JPG" => some .JPEG
  | "JPEG" => some .JPEG
  | "PNG" => some .PNG
  | "WEBP" => some .WEBP
  | _ => none

/-- Free term algebra of the PIL image operations performed by the code. -/
inductive Img where
  | decoded (w h : Nat) (data : Bytes)
  | convertRGB (i : Img)
  | resize (i : Img) (w h : Nat)
  | expand (i : Img) (border : Nat)
  | tile (i : Img) (n : Nat)
deriving DecidableEq

def Img.width : Img → Nat
  | .decoded w _ _ => w
  | .convertRGB i => i.width
  | .resize _ w _ => w
  | .expand i b => i.width + 2 * b
  | .tile i _ => i.width

def Img.height : Img → Nat
  | .decoded _ h _ => h
  | .convertRGB i => i.height
  | .resize _ _ h => h
  | .expand i b => i.height + 2 * b
  | .tile i n => i.height * n

/-- Abstraction of the PIL library: decoding dimensions and the encoders. -/
structure PILEnv where
  dims : Bytes → Nat × Nat
  save : Img → Fmt → Nat → Bytes
  saveMeta : Img → Fmt → Nat → Nat → Bytes
  saveNoOpt : Img → Fmt → Nat → Bytes

/-- `img = Image.open(...)`, followed by `img = img.convert("RGB")` when the
target PIL format is JPEG. -/
def imgFor (fmt : Fmt) (wh : Nat × Nat) (data : Bytes) : Img :=
  if fmt = .JPEG then .convertRGB (.decoded wh.1 wh.2 data) else .decoded wh.1 wh.2 data

/-- Trace events: one `growth` per technique attempt logged by
`increase_image_size`, one `shrink` per iteration of the reduction loop. -/
inductive Ev where
  | growth (name : String)
  | shrink (w h : Nat)
deriving DecidableEq

/-! ### for_both.py: ImageSizeManager -/

/-- `_verify_size`: re-encode at quality 100 and require `len >= target`. -/
def verify_size (env : PILEnv) (img : Img) (target : ℚ) (fmt : Fmt) : Bool :=
  decide (target ≤ (((env.save img fmt 100).length : ℚ)))

/-- `_add_metadata` loop body: `Comment` starts at 1KB and doubles, at most
10 iterations, saving at quality 100. -/
def add_metadata_loop (env : PILEnv) (img : Img) (fmt : Fmt) (target : ℚ) :
    Nat → Nat → Option Img
  | 0, _ => none
  | n + 1, clen =>
    if target ≤ (((env.saveMeta img fmt 100 clen).length : ℚ)) then some img
    else add_metadata_loop env img fmt target n (clen * 2)

def add_metadata (env : PILEnv) (img : Img) (target : ℚ) (fmt : Fmt) : Option Img :=
  add_metadata_loop env img fmt target 10 1024

/-- `range(95, 101)` from `_increase_by_scaling` and `_increase_by_quality`. -/
def quals95to100 : List Nat := [95, 96, 97, 98, 99, 100]

/-- The inner quality loop of `_increase_by_scaling`: any quality in 95..100
whose encoding reaches the target returns the enlarged image. -/
def anyGrowSave (env : PILEnv) (i : Img) (fmt : Fmt) (target : ℚ) : Bool :=
  quals95to100.any (fun q => decide (target ≤ (((env.save i fmt q).length : ℚ))))

/-- `_increase_by_scaling`: scale factor 1.2^k while `<= 4.0`
(`12^k <= 4 * 10^k` exactly), dimensions floored. -/
def increase_by_scaling_loop (env : PILEnv) (img : Img) (fmt : Fmt) (target : ℚ)
    (w h : Nat) : Nat → Nat → Option Img
  | 0, _ => none
  | fuel + 1, k =>
    if 12 ^ k ≤ 4 * 10 ^ k then
      let enlarged := Img.resize img (w * 12 ^ k / 10 ^ k) (h * 12 ^ k / 10 ^ k)
      if anyGrowSave env enlarged fmt target then some enlarged
      else increase_by_scaling_loop env img fmt target w h fuel (k + 1)
    else none

def increase_by_scaling (env : PILEnv) (img : Img) (target : ℚ) (fmt : Fmt) : Option Img :=
  increase_by_scaling_loop env img fmt target img.width img.height 16 1

/-- `_increase_by_padding`: border 100px doubling while `<= 1000`, quality 100. -/
def increase_by_padding_loop (env : PILEnv) (img : Img) (fmt : Fmt) (target : ℚ) :
    Nat → Nat → Option Img
  | 0, _ => none
  | fuel + 1, padding =>
    if padding ≤ 1000 then
      let padded := Img.expand img padding
      if target ≤ (((env.save padded fmt 100).length : ℚ)) then some padded
      else increase_by_padding_loop env img fmt target fuel (padding * 2)
    else none

def increase_by_padding (env : PILEnv) (img : Img) (target : ℚ) (fmt : Fmt) : Option Img :=
  increase_by_padding_loop env img fmt target 8 100

/-- `_increase_by_quality`: qualities 95..100 with `optimize=False`, geometry
unchanged. -/
def increase_by_quality (env : PILEnv) (img : Img) (target : ℚ) (fmt : Fmt) : Option Img :=
  if quals95to100.any (fun q => decide (target ≤ (((env.saveNoOpt img fmt q).length : ℚ)))) then
    some img
  else none

/-- `_increase_by_duplicate`: vertical tiling with multiplier 2..4, quality 100. -/
def increase_by_duplicate_loop (env : PILEnv) (img : Img) (fmt : Fmt) (target : ℚ) :
    Nat → Nat → Option Img
  | 0, _ => none
  | fuel + 1, m =>
    if m ≤ 4 then
      let tiled := Img.tile img m
      if target ≤ (((env.save tiled fmt 100).length : ℚ)) then some tiled
      else increase_by_duplicate_loop env img fmt target fuel (m + 1)
    else none

def increase_by_duplicate (env : PILEnv) (img : Img) (target : ℚ) (fmt : Fmt) : Option Img :=
  increase_by_duplicate_loop env img fmt target 8 2

/-- The `techniques` list of `increase_image_size`, with the logged names. -/
def growthList (env : PILEnv) (img : Img) (target : ℚ) (fmt : Fmt) :
    List (String × Option Img) :=
  [("metadata", add_metadata env img target fmt),
   ("scaling", increase_by_scaling env img target fmt),
   ("padding", increase_by_padding env img target fmt),
   ("quality", increase_by_quality env img target fmt),
   ("duplicate", increase_by_duplicate env img target fmt)]

def growthOrder : List String := ["metadata", "scaling", "padding", "quality", "duplicate"]

/-- The `for technique_name, technique in techniques` loop of
`increase_image_size`: log the attempt, return the first technique result
that exists and passes `_verify_size`. -/
def firstVerifiedT (env : PILEnv) (target : ℚ) (fmt : Fmt) :
    List (String × Option Img) → Option Img × List Ev
  | [] => (none, [])
  | (name, r) :: rest =>
    match r with
    | some i =>
      if verify_size env i target fmt then (some i, [Ev.growth name])
      else
        let t := firstVerifiedT env target fmt rest
        (t.1, Ev.growth name :: t.2)
    | none =>
      let t := firstVerifiedT env target fmt rest
      (t.1, Ev.growth name :: t.2)

def increase_image_size_T (env : PILEnv) (img : Img) (target : ℚ) (fmt : Fmt) :
    Option Img × List Ev :=
  firstVerifiedT env target fmt (growthList env img target fmt)

def increase_image_size (env : PILEnv) (img : Img) (target : ℚ) (fmt : Fmt) : Option Img :=
  (increase_image_size_T env img target fmt).1

/-! ### for_both.py: ImageProcessor.process_image -/

/-- `range(95, 4, -5)`: the descending quality ladder of the reduction loops. -/
def qualsDesc : List Nat :=
  [95, 90, 85, 80, 75, 70, 65, 60, 55, 50, 45, 40, 35, 30, 25, 20, 15, 10, 5]

/-- Inclusive byte-range membership `min_size_bytes <= len <= max_size_bytes`. -/
def inRange (minB maxB : ℚ) (b : Bytes) : Prop :=
  minB ≤ ((b.length : ℚ)) ∧ ((b.length : ℚ)) ≤ maxB

instance (minB maxB : ℚ) (b : Bytes) : Decidable (inRange minB maxB b) := by
  unfold inRange; infer_instance

/-- Inner quality loop of the for_both reduction: save the resized image at
each quality in the ladder and return the first encoding inside the range. -/
def firstInRange (env : PILEnv) (r : Img) (fmt : Fmt) (minB maxB : ℚ) :
    List Nat → Option Bytes
  | [] => none
  | q :: qs =>
    let b := env.save r fmt q
    if inRange minB maxB b then some b else firstInRange env r fmt minB maxB qs

def qualLadderFB (env : PILEnv) (r : Img) (fmt : Fmt) (minB maxB : ℚ) : Option Bytes :=
  firstInRange env r fmt minB maxB qualsDesc

/-- The for_both reduction loop: while both dimensions exceed 100, resize the
original image to 0.9 of the current dimensions (floored) and try the quality
ladder; the current dimensions are then replaced by the reduced ones. -/
def shrinkFB (env : PILEnv) (img : Img) (fmt : Fmt) (minB maxB : ℚ) :
    Nat → Nat → Nat → Option Bytes × List Ev
  | 0, _, _ => (none, [])
  | fuel + 1, w, h =>
    if 100 < w ∧ 100 < h then
      let nw := w * 9 / 10
      let nh := h * 9 / 10
      match qualLadderFB env (Img.resize img nw nh) fmt minB maxB with
      | some b => (some b, [Ev.shrink w h])
      | none =>
        let rest := shrinkFB env img fmt minB maxB fuel nw nh
        (rest.1, Ev.shrink w h :: rest.2)
    else (none, [])

namespace ForBoth

/-- `ImageProcessor.process_image` of for_both.py, instrumented with the event
trace.  `Except.error` models the raised `ValueError` for an unsupported
format; `Except.ok none` models `return None`. -/
def process_image_T (env : PILEnv) (image_data : Bytes) (minB maxB : ℚ)
    (output_format : String) : Except String (Option Bytes) × List Ev :=
  match supportedFormats output_format with
  | none => (.error "Unsupported format", [])
  | some pil_format =>
    let img := imgFor pil_format (env.dims image_data) image_data
    let current : Nat := image_data.length
    let growth : Option Img × List Ev :=
      if ((current : ℚ)) < minB then increase_image_size_T env img minB pil_format
      else (none, [])
    let earlyRet : Option Bytes :=
      match growth.1 with
      | some enlarged =>
        let b := env.save enlarged pil_format 95
        if inRange minB maxB b then some b else none
      | none => none
    match earlyRet with
    | some b => (.ok (some b), growth.2)
    | none =>
      if maxB < ((current : ℚ)) ∨ ((current : ℚ)) < minB then
        let s := shrinkFB env img pil_format minB maxB (img.width + 1) img.width img.height
        (.ok s.1, growth.2 ++ s.2)
      else (.ok none, growth.2)

def process_image (env : PILEnv) (image_data : Bytes) (minB maxB : ℚ)
    (output_format : String) : Except String (Option Bytes) :=
  (process_image_T env image_data minB maxB output_format).1

end ForBoth

/-! ### image_resize.py: ImageProcessor -/

namespace Rsz

/-- `try_save_image`: resize to the given dimensions, walk the descending
quality ladder, and return the first encoding whose length is at most the
target (which the caller passes as `max_size_bytes`).  The Python function
also returns the length; it is recoverable as `b.length`. -/
def try_save_image_loop (env : PILEnv) (img : Img) (fmt : Fmt) (target : ℚ)
    (w h : Nat) : List Nat → Option Bytes
  | [] => none
  | q :: qs =>
    let b := env.save (Img.resize img w h) fmt q
    if ((b.length : ℚ)) ≤ target then some b
    else try_save_image_loop env img fmt target w h qs

def try_save_image (env : PILEnv) (img : Img) (fmt : Fmt) (target : ℚ)
    (w h : Nat) : Option Bytes :=
  try_save_image_loop env img fmt target w h qualsDesc

/-- The enlargement loop of image_resize.py: scale factor 1.1^k while
`<= MAX_SCALING_FACTOR = 2.0` (`11^k <= 2 * 10^k` exactly), dimensions always
computed from the original ones, single save at quality 95; stop early when
the encoding overshoots the maximum. -/
def grow_loop (env : PILEnv) (img : Img) (fmt : Fmt) (ow oh : Nat)
    (minB maxB : ℚ) : Nat → Nat → Option Bytes
  | 0, _ => none
  | fuel + 1, k =>
    if 11 ^ k ≤ 2 * 10 ^ k then
      let b := env.save (Img.resize img (ow * 11 ^ k / 10 ^ k) (oh * 11 ^ k / 10 ^ k)) fmt 95
      if inRange minB maxB b then some b
      else if maxB < ((b.length : ℚ)) then none
      else grow_loop env img fmt ow oh minB maxB fuel (k + 1)
    else none

/-- The reduction loop of image_resize.py: while both dimensions exceed 100,
run `try_save_image` at the current dimensions, accept its result only when
it also lies inside the range, otherwise reduce both dimensions by 10%. -/
def shrink_loop (env : PILEnv) (img : Img) (fmt : Fmt) (minB maxB : ℚ) :
    Nat → Nat → Nat → Option Bytes
  | 0, _, _ => none
  | fuel + 1, w, h =>
    if 100 < w ∧ 100 < h then
      match try_save_image env img fmt maxB w h with
      | some b =>
        if inRange minB maxB b then some b
        else shrink_loop env img fmt minB maxB fuel (w * 9 / 10) (h * 9 / 10)
      | none => shrink_loop env img fmt minB maxB fuel (w * 9 / 10) (h * 9 / 10)
    else none

/-- `ImageProcessor.process_image` of image_resize.py.  Note that the final
branch re-encodes an original already inside the range at quality 95 and
returns the result without checking its size. -/
def process_image (env : PILEnv) (image_data : Bytes) (minB maxB : ℚ)
    (output_format : String) : Except String (Option Bytes) :=
  match supportedFormats output_format with
  | none => .error "Unsupported format"
  | some pil_format =>
    let wh := env.dims image_data
    let img := imgFor pil_format wh image_data
    let current : Nat := image_data.length
    let grown : Option Bytes :=
      if ((current : ℚ)) < minB then grow_loop env img pil_format wh.1 wh.2 minB maxB 16 1
      else none
    match grown with
    | some b => .ok (some b)
    | none =>
      let shrunk : Option Bytes :=
        if maxB < ((current : ℚ)) ∨ ((current : ℚ)) < minB then
          shrink_loop env img pil_format minB maxB (wh.1 + 1) wh.1 wh.2
        else none
      match shrunk with
      | some b => .ok (some b)
      | none =>
        if minB ≤ ((current : ℚ)) ∧ ((current : ℚ)) ≤ maxB then
          .ok (some (env.save img pil_format 95))
        else .ok none

end Rsz

/-! ### String utilities mirroring the Python built-ins used by the code -/

/-- Python `str.upper()` restricted to the ASCII data handled by the bot. -/
def pyUpper (s : String) : String := String.mk (s.data.map Char.toUpper)

def isWS (c : Char) : Bool := c == ' ' || c == '\t' || c == '\n' || c == '\r'

/-- Python `str.strip()`. -/
def pyStrip (s : String) : String :=
  String.mk (((s.data.dropWhile isWS).reverse.dropWhile isWS).reverse)

def splitWSAux : List Char → List Char → List String
  | [], acc => if acc.isEmpty then [] else [String.mk acc.reverse]
  | c :: cs, acc =>
    if isWS c then
      if acc.isEmpty then splitWSAux cs []
      else String.mk acc.reverse :: splitWSAux cs []
    else splitWSAux cs (c :: acc)

/-- Python `str.split()` with no argument: split on whitespace runs. -/
def pySplitWS (s : String) : List String := splitWSAux s.data []

def startsWithL : List Char → List Char → Bool
  | [], _ => true
  | _ :: _, [] => false
  | p :: ps, c :: cs => p == c && startsWithL ps cs

def hasSubAux (pat : List Char) : List Char → Bool
  | [] => startsWithL pat []
  | c :: cs => startsWithL pat (c :: cs) || hasSubAux pat cs

/-- Python `pat in s` substring test. -/
def containsSub (s pat : String) : Bool := hasSubAux pat.data s.data

/-- Python `s.replace(pat, "")` scanning left to right over the list, with a
skip counter consuming the tail of an occurrence just matched (structural
recursion on the list, so that concrete runs reduce in the kernel). -/
def replaceGo (pat : List Char) : List Char → Nat → List Char
  | [], _ => []
  | _ :: cs, k + 1 => replaceGo pat cs k
  | c :: cs, 0 =>
    if pat ≠ [] ∧ startsWithL pat (c :: cs) then replaceGo pat cs (pat.length - 1)
    else c :: replaceGo pat cs 0

/-- Python `s.replace(pat, "")`: remove the non-overlapping occurrences of
`pat`, scanning left to right.  (Case sensitive, like the built-in.) -/
def replaceAux (pat : List Char) (l : List Char) : List Char := replaceGo pat l 0

def pyRemoveAll (s pat : String) : String := String.mk (replaceAux pat.data s.data)

def digVal (c : Char) : Nat := c.toNat - 48

/-- Maximal digit run at the front of the list: value, digit count, rest. -/
def takeDigitsAux : List Char → Nat × Nat × List Char
  | [] => (0, 0, [])
  | c :: cs =>
    if c.isDigit then
      let t := takeDigitsAux cs
      (digVal c * 10 ^ t.2.1 + t.1, t.2.1 + 1, t.2.2)
    else (0, 0, c :: cs)

/-- Python `float(...)` on the decimal literals reachable from the size
regular expression: digit run, optional dot and digit run, nothing else.
Signs, exponents, underscores and surrounding whitespace are never produced
by the call sites and are not modelled; any other string raises, i.e. `none`. -/
def parseFloatChars (l : List Char) : Option ℚ :=
  let t := takeDigitsAux l
  match t.2.2 with
  | [] => if t.2.1 = 0 then none else some ((t.1 : ℚ))
  | '.' :: r2 =>
    let u := takeDigitsAux r2
    match u.2.2 with
    | [] =>
      if t.2.1 = 0 ∧ u.2.1 = 0 then none
      else some (qadd ((t.1 : ℚ)) (qdiv ((u.1 : ℚ)) (((10 ^ u.2.1 : ℕ) : ℚ))))
    | _ => none
  | _ => none

def parsePyFloat (s : String) : Option ℚ := parseFloatChars s.data

/-- `ImageProcessor.convert_to_bytes` (identical in both files): strip the
uppercase literals `MB` and `KB` with `str.replace`, call `float`, then pick
the unit by a substring test on the uppercased input.  `none` models the
`ValueError` escaping from `float`. -/
def convert_to_bytes (size_str : String) : Option ℚ :=
  match parsePyFloat (pyRemoveAll (pyRemoveAll size_str "MB") "KB") with
  | none => none
  | some size =>
    if containsSub (pyUpper size_str) "MB" then some (qmul (qmul size 1024) 1024)
    else if containsSub (pyUpper size_str) "KB" then some (qmul size 1024)
    else some size

/-! ### The size-range regular expression -/

/-- `(?:MB|KB)` under `re.IGNORECASE`. -/
def matchUnit : List Char → Option (List Char × List Char)
  | a :: b :: rest =>
    if (a.toUpper == 'M' || a.toUpper == 'K') && b.toUpper == 'B' then some ([a, b], rest)
    else none
  | _ => none

/-- One capture group `\d+(?:\.\d+)?(?:MB|KB)` of the size pattern, under
`re.IGNORECASE`; returns the matched characters and the remainder.  The
alternatives here are disjoint on their first character, so the greedy scan
coincides with the backtracking semantics of `re`. -/
def matchNumTok (l : List Char) : Option (List Char × List Char) :=
  let ds := l.takeWhile Char.isDigit
  let r := l.dropWhile Char.isDigit
  if ds.isEmpty then none
  else
    match r with
    | '.' :: r2 =>
      let fs := r2.takeWhile Char.isDigit
      let r3 := r2.dropWhile Char.isDigit
      if fs.isEmpty then (matchUnit r).map (fun u => (ds ++ u.1, u.2))
      else
        match matchUnit r3 with
        | some u => some (ds ++ '.' :: (fs ++ u.1), u.2)
        | none => none
    | _ => (matchUnit r).map (fun u => (ds ++ u.1, u.2))

/-- `re.match(r'(\d+(?:\.\d+)?(?:MB|KB))-(\d+(?:\.\d+)?(?:MB|KB))', s,
re.IGNORECASE)`, returning the two groups.  `re.match` anchors at the start
only, so trailing characters are allowed. -/
def matchSizeRange (s : String) : Option (String × String) :=
  match matchNumTok s.data with
  | none => none
  | some g1 =>
    match g1.2 with
    | '-' :: r2 =>
      match matchNumTok r2 with
      | none => none
      | some g2 => some (String.mk g1.1, String.mk g2.1)
    | _ => none

/-! ### Size display -/

/-- Rounding used by Python `format(x, '.2f')` on an exactly representable
value: round half to even.  The byte counts divided by powers of two that the
bot displays are exactly representable, so this models the format call. -/
def roundHalfEven (x : ℚ) : ℤ :=
  let n : ℤ := ⌊x⌋
  let f : ℚ := qsub x ((n : ℚ))
  if f < qdiv 1 2 then n
  else if qdiv 1 2 < f then n + 1
  else if n % 2 = 0 then n else n + 1

def twoDigits (k : Nat) : String := if k < 10 then "0" ++ toString k else toString k

/-- Render a nonnegative number of hundredths as a 2-decimal literal. -/
def fmt2core (r : ℤ) : String :=
  let m := r.toNat
  toString (m / 100) ++ "." ++ twoDigits (m % 100)

/-- Python `f"{x:.2f}"` for the nonnegative exact values displayed here. -/
def fmt2 (x : ℚ) : String := fmt2core (roundHalfEven (qmul x 100))

/-- `ImageProcessor.get_size_in_appropriate_unit` (identical in both files). -/
def get_size_in_appropriate_unit (bytes_size : Nat) : String :=
  let kb_size : ℚ := qdiv ((bytes_size : ℚ)) 1024
  if 1024 ≤ kb_size then fmt2 (qdiv kb_size 1024) ++ "MB"
  else fmt2 kb_size ++ "KB"

/-! ### The per-user tracker and the follow-up message handler -/

/-- One `user_states[user_id]` entry (`original_size` is never read again). -/
structure UserSt where
  file_id : Nat
  waiting_for : String
deriving DecidableEq

abbrev States := Nat → Option UserSt

/-- `handle_photo` recording the pending request for a user. -/
def record (u f : Nat) (st : States) : States :=
  fun v => if v = u then some ⟨f, "size_format"⟩ else st v

/-- Tracker consume: read the pending file reference and drop the entry. -/
def consume (u : Nat) (st : States) : Option Nat × States :=
  ((st u).map UserSt.file_id, fun v => if v = u then none else st v)

/-- The user-visible outcome classes of `handle_conversion_request`. -/
inductive Outcome where
  | invalidFormat
  | unsupportedFormat
  | invalidSizeRange
  | conversionError
  | minNotLessThanMax
  | success (b : Bytes)
  | couldNotProcess
  | processingError (e : String)
  | internalError
deriving DecidableEq

/-- `handle_conversion_request` (textually identical in both files up to the
engine it calls, which is passed here as `proc`; `download` models
`bot.download_file` keyed by the stored `file_id`).  The `finally` block
deletes the tracker entry of the user on every path, which is the second
component. -/
def handle_conversion_request (download : Nat → Bytes)
    (proc : Bytes → ℚ → ℚ → String → Except String (Option Bytes))
    (u : Nat) (text : String) (states : States) : Outcome × States :=
  let outcome : Outcome :=
    match pySplitWS (pyStrip text) with
    | [size_range, fmtTok] =>
      let output_format := pyUpper fmtTok
      match supportedFormats output_format with
      | none => .unsupportedFormat
      | some _ =>
        match matchSizeRange size_range with
        | none => .invalidSizeRange
        | some gs =>
          match convert_to_bytes gs.1, convert_to_bytes gs.2 with
          | some minB, some maxB =>
            if maxB ≤ minB then .minNotLessThanMax
            else
              match states u with
              | none => .internalError
              | some stu =>
                match proc (download stu.file_id) minB maxB output_format with
                | .ok (some b) => .success b
                | .ok none => .couldNotProcess
                | .error e => .processingError e
          | _, _ => .conversionError
    | _ => .invalidFormat
  (outcome, fun v => if v = u then none else states v)

/-! ### Concrete environments used by the witnesses and counterexamples -/

/-- Environment whose encoders always produce as many bytes as the image is
wide, with a 200 by 200 decoded geometry. -/
def envW : PILEnv where
  dims := fun _ => (200, 200)
  save := fun i _ _ => List.replicate i.width 0
  saveMeta := fun i _ _ _ => List.replicate i.width 0
  saveNoOpt := fun i _ _ => List.replicate i.width 0

/-- A 5-byte input. -/
def dataW : Bytes := List.replicate 5 0

/-- Environment whose encoder always produces 10 bytes. -/
def envK : PILEnv where
  dims := fun _ => (200, 200)
  save := fun _ _ _ => List.replicate 10 0
  saveMeta := fun _ _ _ _ => List.replicate 10 0
  saveNoOpt := fun _ _ _ => List.replicate 10 0

/-- Environment whose encoder produces 40 bytes at quality 95 and 60 bytes at
every other quality, regardless of geometry. -/
def envQ : PILEnv where
  dims := fun _ => (200, 200)
  save := fun _ _ q => List.replicate (if q = 95 then 40 else 60) 0
  saveMeta := fun _ _ _ _ => []
  saveNoOpt := fun _ _ _ => []

/-- A 200-byte input. -/
def dataQ : Bytes := List.replicate 200 0

/-- Iterated 10% reduction with floor, as performed by the reduction loops:
`shrink09 x k` is the width after `k` steps of `int(width * 0.9)`. -/
def shrink09 (x : Nat) : Nat → Nat
  | 0 => x
  | k + 1 => shrink09 x k * 9 / 10

/-! ## Lemmas and claim theorems -/

@[simp] theorem qmul_eq (a b : ℚ) : qmul a b = a * b := by
  rw [qmul, ← Rat.divInt_mul_divInt', Rat.num_divInt_den, Rat.num_divInt_den]

@[simp] theorem qdiv_eq (a b : ℚ) : qdiv a b = a / b := by
  rw [qdiv, ← Rat.divInt_div_divInt, Rat.num_divInt_den, Rat.num_divInt_den]

@[simp] theorem qadd_eq (a b : ℚ) : qadd a b = a + b := by
  have ha : ((a.den : Int)) ≠ 0 := by exact_mod_cast a.den_nz
  have hb : ((b.den : Int)) ≠ 0 := by exact_mod_cast b.den_nz
  rw [qadd, ← Rat.divInt_add_divInt _ _ ha hb, Rat.num_divInt_den, Rat.num_divInt_den]

@[simp] theorem qsub_eq (a b : ℚ) : qsub a b = a - b := by
  have ha : ((a.den : Int)) ≠ 0 := by exact_mod_cast a.den_nz
  have hb : ((b.den : Int)) ≠ 0 := by exact_mod_cast b.den_nz
  rw [qsub, ← Rat.divInt_sub_divInt _ _ ha hb, Rat.num_divInt_den, Rat.num_divInt_den]

/-- C5.  The size-range regular expression is compiled with `re.IGNORECASE`
and accepts lowercase units, but `convert_to_bytes` strips only the uppercase
literals `MB`/`KB` before calling `float`, so a lowercase group such as
`"2mb"` makes `float` raise a `ValueError` instead of converting: the
handler then reports that error rather than the 2 MiB value the claim
requires.  This contradicts the case-insensitivity stated by the spec and
deliberately implemented in the regular expression; the claim is right and
the conversion code is the slip. -/
theorem c5_lowercase_unit_value_error :
    matchSizeRange "2mb-3mb" = some ("2mb", "3mb") ∧
    convert_to_bytes "2mb" = none ∧
    convert_to_bytes "2MB" = some 2097152 ∧
    (handle_conversion_request (fun _ => []) (fun _ _ _ _ => .ok none) 0 "2mb-3mb JPG"
        (record 0 7 (fun _ => none))).1 = .conversionError := by
  refine ⟨by decide, by decide, by decide, by decide⟩

/-- C6.  The size-range regular expression accepts `"2MB-3MB"` and
`"500KB-1MB"`, rejects `"2-3MB"` (no unit on the first number), while
`"3MB-2MB"` matches the pattern and is rejected only by the later min<max
check, which produces its own validation outcome, distinct from the
regex-mismatch outcome. -/
theorem c6_size_range_regex :
    matchSizeRange "2MB-3MB" = some ("2MB", "3MB") ∧
    matchSizeRange "500KB-1MB" = some ("500KB", "1MB") ∧
    matchSizeRange "2-3MB" = none ∧
    matchSizeRange "3MB-2MB" = some ("3MB", "2MB") ∧
    (handle_conversion_request (fun _ => []) (fun _ _ _ _ => .ok none) 0 "3MB-2MB JPG"
        (record 0 7 (fun _ => none))).1 = .minNotLessThanMax ∧
    Outcome.minNotLessThanMax ≠ Outcome.invalidSizeRange := by
  refine ⟨by decide, by decide, by decide, by decide, by decide, by decide⟩

set_option maxRecDepth 100000 in
/-- C10.  The two engines are not behaviorally equivalent: on a 5-byte input
with target [500, 2000] and format PNG, in an environment where every
encoding is as long as the image is wide, the for_both.py engine reaches the
target by scaling (the successful scale factor, 1.2 to the 6th, is about
2.99, beyond the 2.0 cap of image_resize.py), while the image_resize.py
engine exhausts its capped growth ladder and its shrink ladder and fails. -/
theorem c10_engines_differ :
    ForBoth.process_image envW dataW 500 2000 "PNG" = .ok (some (List.replicate 597 0)) ∧
    Rsz.process_image envW dataW 500 2000 "PNG" = .ok none ∧
    ForBoth.process_image envW dataW 500 2000 "PNG" ≠
      Rsz.process_image envW dataW 500 2000 "PNG" := by
  refine ⟨?_, ?_, ?_⟩
  · decide
  · decide
  · decide

/-- C1 counterexample.  The claim quantifies over both `process_image`
implementations, but the image_resize.py one can return a byte string whose
length lies outside [min, max]: with a constant 10-byte encoder and a 5-byte
input whose size already lies in [3, 7], its final branch re-encodes at
quality 95 and returns the 10-byte result without any size check. -/
theorem c1_counterexample :
    Rsz.process_image envK (List.replicate 5 0 : Bytes) 3 7 "PNG" =
      .ok (some (List.replicate 10 0)) ∧
    ¬ inRange 3 7 (List.replicate 10 0) ∧ (3 : ℚ) < 7 := by
  refine ⟨by decide, by decide, by decide⟩

/-- C2 counterexample.  The claim again covers both implementations, but
for_both.py has no branch for an original already inside [min, max]: on a
6-byte input with target [4, 8] it skips both the growth and the reduction
branch and returns `None` instead of a re-encoding. -/
theorem c2_counterexample :
    ForBoth.process_image envK (List.replicate 6 0 : Bytes) 4 8 "PNG" = .ok none ∧
    inRange 4 8 (List.replicate 6 0) ∧ (4 : ℚ) < 8 := by
  refine ⟨by decide, by decide, by decide⟩

set_option maxRecDepth 100000 in
/-- C4 counterexample.  In image_resize.py the reduction does not return the
first encoding inside [min, max]: `try_save_image` stops at the first
encoding with length at most max.  With an encoder giving 40 bytes at
quality 95 and 60 bytes otherwise, target [50, 100], the quality-90 encoding
(60 bytes) is in range at the very first geometry, yet the engine returns
`None`; the for_both.py reduction, which matches the claim, returns it. -/
theorem c4_counterexample :
    Rsz.process_image envQ dataQ 50 100 "PNG" = .ok none ∧
    inRange 50 100 (envQ.save (Img.resize (imgFor .PNG (200, 200) dataQ) 180 180) .PNG 90) ∧
    ForBoth.process_image envQ dataQ 50 100 "PNG" = .ok (some (List.replicate 60 0)) := by
  refine ⟨by decide, by decide, by decide⟩

/-- C7.  The `finally` block of `handle_conversion_request` deletes the
per-user tracker entry on every path: whatever the message text, the
download function and the processing engine (hence whatever outcome the
handler takes, success, validation error, processing error or internal
error), after `record(u, f)` and one handled follow-up message, a further
`consume(u)` finds no entry. -/
theorem c7_tracker_cleared (download : Nat → Bytes)
    (proc : Bytes → ℚ → ℚ → String → Except String (Option Bytes))
    (u f : Nat) (text : String) (states : States) :
    (consume u (handle_conversion_request download proc u text (record u f states)).2).1 =
      none := by
  simp [consume, handle_conversion_request]

theorem firstInRange_sound {env : PILEnv} {r : Img} {fmt : Fmt} {minB maxB : ℚ} :
    ∀ {l : List Nat} {b : Bytes}, firstInRange env r fmt minB maxB l = some b →
      inRange minB maxB b ∧ ∃ q, q ∈ l ∧ b = env.save r fmt q := by
  intro l
  induction l with
  | nil => intro b h; simp [firstInRange] at h
  | cons q qs ih =>
    intro b h
    simp only [firstInRange] at h
    split at h
    next hq =>
      cases h
      exact ⟨hq, q, by simp, rfl⟩
    next hq =>
      obtain ⟨h1, q2, hq2, rfl⟩ := ih h
      exact ⟨h1, q2, by simp [hq2], rfl⟩

theorem shrinkFB_sound {env : PILEnv} {img : Img} {fmt : Fmt} {minB maxB : ℚ} :
    ∀ (fuel : Nat) {w h : Nat} {b : Bytes},
      (shrinkFB env img fmt minB maxB fuel w h).1 = some b →
      inRange minB maxB b ∧ ∃ w2 h2 q, b = env.save (Img.resize img w2 h2) fmt q := by
  intro fuel
  induction fuel with
  | zero => intro w h b hb; simp [shrinkFB] at hb
  | succ n ih =>
    intro w h b hb
    simp only [shrinkFB] at hb
    split at hb
    · split at hb
      next heq =>
        cases hb
        obtain ⟨h1, q, hq, rfl⟩ := firstInRange_sound heq
        exact ⟨h1, _, _, q, rfl⟩
      next heq => exact ih hb
    · simp at hb

theorem try_save_image_loop_sound {env : PILEnv} {img : Img} {fmt : Fmt} {target : ℚ}
    {w h : Nat} :
    ∀ {l : List Nat} {b : Bytes}, Rsz.try_save_image_loop env img fmt target w h l = some b →
      ((b.length : ℚ)) ≤ target ∧ ∃ q, q ∈ l ∧ b = env.save (Img.resize img w h) fmt q := by
  intro l
  induction l with
  | nil => intro b hb; simp [Rsz.try_save_image_loop] at hb
  | cons q qs ih =>
    intro b hb
    simp only [Rsz.try_save_image_loop] at hb
    split at hb
    next hq =>
      cases hb
      exact ⟨hq, q, by simp, rfl⟩
    next hq =>
      obtain ⟨h1, q2, hq2, rfl⟩ := ih hb
      exact ⟨h1, q2, by simp [hq2], rfl⟩

theorem grow_loop_sound {env : PILEnv} {img : Img} {fmt : Fmt} {ow oh : Nat}
    {minB maxB : ℚ} :
    ∀ (fuel : Nat) {k : Nat} {b : Bytes},
      Rsz.grow_loop env img fmt ow oh minB maxB fuel k = some b →
      inRange minB maxB b ∧ ∃ w2 h2, b = env.save (Img.resize img w2 h2) fmt 95 := by
  intro fuel
  induction fuel with
  | zero => intro k b hb; simp [Rsz.grow_loop] at hb
  | succ n ih =>
    intro k b hb
    simp only [Rsz.grow_loop] at hb
    split at hb
    · split at hb
      next hin =>
        cases hb
        exact ⟨hin, _, _, rfl⟩
      · split at hb
        · simp at hb
        · exact ih hb
    · simp at hb

theorem shrink_loop_sound {env : PILEnv} {img : Img} {fmt : Fmt} {minB maxB : ℚ} :
    ∀ (fuel : Nat) {w h : Nat} {b : Bytes},
      Rsz.shrink_loop env img fmt minB maxB fuel w h = some b →
      inRange minB maxB b ∧ ∃ w2 h2 q, b = env.save (Img.resize img w2 h2) fmt q := by
  intro fuel
  induction fuel with
  | zero => intro w h b hb; simp [Rsz.shrink_loop] at hb
  | succ n ih =>
    intro w h b hb
    simp only [Rsz.shrink_loop] at hb
    split at hb
    · split at hb
      next b0 heq =>
        split at hb
        next hin =>
          cases hb
          obtain ⟨-, q, hq, rfl⟩ := try_save_image_loop_sound heq
          exact ⟨hin, _, _, q, rfl⟩
        next hin => exact ih hb
      next heq => exact ih hb
    · simp at hb

/-- C1, amended.  The for_both.py engine never returns an out-of-range
result: every returned byte string has its length inside [min, max] and is
produced by a save call in the resolved PIL format.  The image_resize.py
engine satisfies the same bound on its growth and reduction paths, but its
final branch can return an out-of-range re-encoding exactly when the
original input already lies inside [min, max] (see the counterexample); so
for it, any returned byte string is either in range itself or the original
was. -/
theorem c1_amended_size_bounds (env : PILEnv) (data : Bytes) (minB maxB : ℚ)
    (fs : String) (b : Bytes) :
    (ForBoth.process_image env data minB maxB fs = .ok (some b) →
      inRange minB maxB b ∧
      ∃ fmt i q, supportedFormats fs = some fmt ∧ b = env.save i fmt q) ∧
    (Rsz.process_image env data minB maxB fs = .ok (some b) →
      (inRange minB maxB b ∨ inRange minB maxB data) ∧
      ∃ fmt i q, supportedFormats fs = some fmt ∧ b = env.save i fmt q) := by
  constructor
  · intro h
    unfold ForBoth.process_image ForBoth.process_image_T at h
    cases hf : supportedFormats fs with
    | none => rw [hf] at h; simp at h
    | some fmt =>
      rw [hf] at h
      simp only at h
      split at h
      next b0 heq =>
        cases h
        split at heq
        next enlarged hg =>
          split at heq
          next hin =>
            cases heq
            exact ⟨hin, fmt, _, 95, rfl, rfl⟩
          next hin => simp at heq
        next hg => simp at heq
      next heq =>
        split at h
        · simp only [Except.ok.injEq] at h
          obtain ⟨h1, w2, h2, q, rfl⟩ := shrinkFB_sound _ h
          exact ⟨h1, fmt, _, q, rfl, rfl⟩
        · simp at h
  · intro h
    unfold Rsz.process_image at h
    cases hf : supportedFormats fs with
    | none => rw [hf] at h; simp at h
    | some fmt =>
      rw [hf] at h
      simp only at h
      split at h
      next b0 heq =>
        cases h
        split at heq
        · obtain ⟨h1, w2, h2, rfl⟩ := grow_loop_sound _ heq
          exact ⟨Or.inl h1, fmt, _, 95, rfl, rfl⟩
        · simp at heq
      next heq =>
        split at h
        next b0 heq2 =>
          cases h
          split at heq2
          · obtain ⟨h1, w2, h2, q, rfl⟩ := shrink_loop_sound _ heq2
            exact ⟨Or.inl h1, fmt, _, q, rfl, rfl⟩
          · simp at heq2
        next heq2 =>
          split at h
          next hin =>
            simp only [Except.ok.injEq, Option.some.injEq] at h
            subst h
            exact ⟨Or.inr hin, fmt, _, 95, rfl, rfl⟩
          next hin => simp at h

set_option maxRecDepth 100000 in
/-- C1 witness: a concrete successful run of the for_both.py engine, whose
result is in range and produced by a save call in the requested format. -/
theorem c1_amended_size_bounds_witness :
    inRange 500 2000 (List.replicate 597 0) ∧
    ∃ fmt i q, supportedFormats "PNG" = some fmt ∧
      (List.replicate 597 0 : Bytes) = envW.save i fmt q :=
  (c1_amended_size_bounds envW dataW 500 2000 "PNG" (List.replicate 597 0)).1 (by decide)

/-- C2, amended.  For an original already inside [min, max], the
image_resize.py engine skips both searches, re-encodes once at the fixed
quality 95 and returns that re-encoding; the for_both.py engine has no such
branch and returns `None` for the same inputs. -/
theorem c2_amended_in_range_reencode (env : PILEnv) (data : Bytes) (minB maxB : ℚ)
    (fs : String) (fmt : Fmt) (hf : supportedFormats fs = some fmt)
    (h1 : minB ≤ ((data.length : ℚ))) (h2 : ((data.length : ℚ)) ≤ maxB) :
    Rsz.process_image env data minB maxB fs =
      .ok (some (env.save (imgFor fmt (env.dims data) data) fmt 95)) ∧
    ForBoth.process_image env data minB maxB fs = .ok none := by
  have hnlt : ¬ ((data.length : ℚ)) < minB := not_lt.mpr h1
  have hngt : ¬ maxB < ((data.length : ℚ)) := not_lt.mpr h2
  have hor : ¬ (maxB < ((data.length : ℚ)) ∨ ((data.length : ℚ)) < minB) := by
    push_neg
    exact ⟨h2, h1⟩
  constructor
  · unfold Rsz.process_image
    rw [hf]
    simp only [if_neg hnlt, if_neg hor,
      if_pos (⟨h1, h2⟩ : minB ≤ ((data.length : ℚ)) ∧ ((data.length : ℚ)) ≤ maxB)]
  · unfold ForBoth.process_image ForBoth.process_image_T
    rw [hf]
    simp only [if_neg hnlt, if_neg hor]

theorem firstVerifiedT_trace (env : PILEnv) (t : ℚ) (fmt : Fmt) :
    ∀ l : List (String × Option Img), ∃ k, k ≤ l.length ∧
      (firstVerifiedT env t fmt l).2 = ((l.map Prod.fst).take k).map Ev.growth := by
  intro l
  induction l with
  | nil => exact ⟨0, by simp, by simp [firstVerifiedT]⟩
  | cons p rest ih =>
    obtain ⟨k, hk, htr⟩ := ih
    obtain ⟨name, r⟩ := p
    cases r with
    | some i =>
      by_cases hv : verify_size env i t fmt = true
      · exact ⟨1, by simp, by simp [firstVerifiedT, hv]⟩
      · refine ⟨k + 1, by simpa using hk, ?_⟩
        simp [firstVerifiedT, hv, htr]
    | none =>
      refine ⟨k + 1, by simpa using hk, ?_⟩
      simp [firstVerifiedT, htr]

theorem firstVerifiedT_sound (env : PILEnv) (t : ℚ) (fmt : Fmt) :
    ∀ {l : List (String × Option Img)} {i : Img},
      (firstVerifiedT env t fmt l).1 = some i → verify_size env i t fmt = true := by
  intro l
  induction l with
  | nil => intro i h; simp [firstVerifiedT] at h
  | cons p rest ih =>
    intro i h
    obtain ⟨name, r⟩ := p
    cases r with
    | some j =>
      simp only [firstVerifiedT] at h
      split at h
      next hv =>
        cases h
        exact hv
      next hv => exact ih h
    | none =>
      simp only [firstVerifiedT] at h
      exact ih h

theorem shrinkFB_trace_shape {env : PILEnv} {img : Img} {fmt : Fmt} {minB maxB : ℚ} :
    ∀ (fuel : Nat) {w h : Nat} {e : Ev},
      e ∈ (shrinkFB env img fmt minB maxB fuel w h).2 → ∃ w2 h2, e = Ev.shrink w2 h2 := by
  intro fuel
  induction fuel with
  | zero => intro w h e he; simp [shrinkFB] at he
  | succ n ih =>
    intro w h e he
    simp only [shrinkFB] at he
    split at he
    · split at he
      · simp at he
        exact ⟨_, _, he⟩
      · simp only [List.mem_cons] at he
        rcases he with rfl | hmem
        · exact ⟨_, _, rfl⟩
        · exact ih hmem
    · simp at he

/-- C3.  For an input below the minimum, under any encoder environment: the
trace of the for_both.py engine starts with the growth technique attempts in
the fixed order metadata, scaling, padding, quality, duplicate (a prefix of
it, the first verified success stopping the walk), and every reduction step
comes after all of them; any image accepted by `increase_image_size` has
been re-verified at quality 100 against the minimum; and when the accepted
image re-encodes at quality 95 into the range, that encoding is returned
and the reduction loop contributes no step at all. -/
theorem c3_growth_order_and_priority (env : PILEnv) (data : Bytes) (minB maxB : ℚ)
    (fs : String) (fmt : Fmt) (hf : supportedFormats fs = some fmt)
    (hlt : ((data.length : ℚ)) < minB) :
    (∃ k ss, k ≤ 5 ∧
        (ForBoth.process_image_T env data minB maxB fs).2 =
          ((growthOrder.take k).map Ev.growth) ++ ss ∧
        ∀ e ∈ ss, ∃ w h, e = Ev.shrink w h) ∧
    (∀ i, (increase_image_size_T env (imgFor fmt (env.dims data) data) minB fmt).1 = some i →
        minB ≤ (((env.save i fmt 100).length : ℚ))) ∧
    (∀ i, (increase_image_size_T env (imgFor fmt (env.dims data) data) minB fmt).1 = some i →
        inRange minB maxB (env.save i fmt 95) →
        ForBoth.process_image env data minB maxB fs = .ok (some (env.save i fmt 95)) ∧
        ∀ w h, Ev.shrink w h ∉ (ForBoth.process_image_T env data minB maxB fs).2) := by
  have hcond : maxB < ((data.length : ℚ)) ∨ ((data.length : ℚ)) < minB := Or.inr hlt
  obtain ⟨k, hk, htr⟩ :=
    firstVerifiedT_trace env minB fmt (growthList env (imgFor fmt (env.dims data) data) minB fmt)
  have hk5 : k ≤ 5 := by simpa [growthList] using hk
  have htr2 : (increase_image_size_T env (imgFor fmt (env.dims data) data) minB fmt).2 =
      (growthOrder.take k).map Ev.growth := htr
  refine ⟨?_, ?_, ?_⟩
  · rcases hgr : (increase_image_size_T env (imgFor fmt (env.dims data) data) minB fmt).1
      with _ | i
    · have hpt : (ForBoth.process_image_T env data minB maxB fs).2 =
          (increase_image_size_T env (imgFor fmt (env.dims data) data) minB fmt).2 ++
            (shrinkFB env (imgFor fmt (env.dims data) data) fmt minB maxB
              ((imgFor fmt (env.dims data) data).width + 1)
              (imgFor fmt (env.dims data) data).width
              (imgFor fmt (env.dims data) data).height).2 := by
        simp only [ForBoth.process_image_T, hf, if_pos hlt, hgr, if_pos hcond]
      exact ⟨k, _, hk5, by rw [hpt, htr2], fun e he => shrinkFB_trace_shape _ he⟩
    · by_cases hin : inRange minB maxB (env.save i fmt 95)
      · have hpt : (ForBoth.process_image_T env data minB maxB fs).2 =
            (increase_image_size_T env (imgFor fmt (env.dims data) data) minB fmt).2 := by
          simp only [ForBoth.process_image_T, hf, if_pos hlt, hgr, if_pos hin]
        exact ⟨k, [], hk5, by rw [hpt, htr2, List.append_nil], by simp⟩
      · have hpt : (ForBoth.process_image_T env data minB maxB fs).2 =
            (increase_image_size_T env (imgFor fmt (env.dims data) data) minB fmt).2 ++
              (shrinkFB env (imgFor fmt (env.dims data) data) fmt minB maxB
                ((imgFor fmt (env.dims data) data).width + 1)
                (imgFor fmt (env.dims data) data).width
                (imgFor fmt (env.dims data) data).height).2 := by
          simp only [ForBoth.process_image_T, hf, if_pos hlt, hgr, if_neg hin, if_pos hcond]
        exact ⟨k, _, hk5, by rw [hpt, htr2], fun e he => shrinkFB_trace_shape _ he⟩
  · intro i hi
    have hv := firstVerifiedT_sound env minB fmt (l := growthList env (imgFor fmt (env.dims data) data) minB fmt) hi
    unfold verify_size at hv
    exact of_decide_eq_true hv
  · intro i hi hin
    constructor
    · simp only [ForBoth.process_image, ForBoth.process_image_T, hf, if_pos hlt, hi,
        if_pos hin]
    · intro w h hmem
      simp only [ForBoth.process_image_T, hf, if_pos hlt, hi, if_pos hin, htr2] at hmem
      simp only [List.mem_map] at hmem
      obtain ⟨name, -, hcontra⟩ := hmem
      exact Ev.noConfusion hcontra

/-- C3 witness: a concrete run with a 5-byte input, target [500, 2000] and
PNG output in the width-length environment: the hypotheses hold and all
three conjuncts follow. -/
theorem c3_growth_order_and_priority_witness :
    (∃ k ss, k ≤ 5 ∧
        (ForBoth.process_image_T envW dataW 500 2000 "PNG").2 =
          ((growthOrder.take k).map Ev.growth) ++ ss ∧
        ∀ e ∈ ss, ∃ w h, e = Ev.shrink w h) ∧
    (∀ i, (increase_image_size_T envW (imgFor .PNG (envW.dims dataW) dataW) 500 .PNG).1 =
          some i →
        (500 : ℚ) ≤ (((envW.save i .PNG 100).length : ℚ))) ∧
    (∀ i, (increase_image_size_T envW (imgFor .PNG (envW.dims dataW) dataW) 500 .PNG).1 =
          some i →
        inRange 500 2000 (envW.save i .PNG 95) →
        ForBoth.process_image envW dataW 500 2000 "PNG" = .ok (some (envW.save i .PNG 95)) ∧
        ∀ w h, Ev.shrink w h ∉ (ForBoth.process_image_T envW dataW 500 2000 "PNG").2) :=
  c3_growth_order_and_priority envW dataW 500 2000 "PNG" .PNG rfl (by decide)

theorem firstInRange_first {env : PILEnv} {r : Img} {fmt : Fmt} {minB maxB : ℚ} :
    ∀ {l : List Nat} {b : Bytes}, firstInRange env r fmt minB maxB l = some b →
      ∃ pre q post, l = pre ++ q :: post ∧ b = env.save r fmt q ∧ inRange minB maxB b ∧
        ∀ q2 ∈ pre, ¬ inRange minB maxB (env.save r fmt q2) := by
  intro l
  induction l with
  | nil => intro b h; simp [firstInRange] at h
  | cons q qs ih =>
    intro b h
    simp only [firstInRange] at h
    split at h
    next hq =>
      cases h
      exact ⟨[], q, qs, rfl, rfl, hq, by simp⟩
    next hq =>
      obtain ⟨pre, q2, post, heq, hb, hin, hpre⟩ := ih h
      refine ⟨q :: pre, q2, post, by simp [heq], hb, hin, ?_⟩
      intro x hx
      rcases List.mem_cons.mp hx with rfl | hx2
      · exact hq
      · exact hpre x hx2

theorem shrink09_shift (x : Nat) : ∀ k, shrink09 (x * 9 / 10) k = shrink09 x (k + 1) := by
  intro k
  induction k with
  | zero => rfl
  | succ n ih =>
    show shrink09 (x * 9 / 10) n * 9 / 10 = shrink09 x (n + 1) * 9 / 10
    rw [ih]

theorem shrinkFB_geometry {env : PILEnv} {img : Img} {fmt : Fmt} {minB maxB : ℚ} :
    ∀ (fuel : Nat) {w h : Nat} {b : Bytes} {tr : List Ev},
      shrinkFB env img fmt minB maxB fuel w h = (some b, tr) →
      ∃ k, 1 ≤ k ∧
        qualLadderFB env (Img.resize img (shrink09 w k) (shrink09 h k)) fmt minB maxB =
          some b ∧
        (∀ j, 1 ≤ j → j < k →
          qualLadderFB env (Img.resize img (shrink09 w j) (shrink09 h j)) fmt minB maxB =
            none) ∧
        (∀ j, j < k → 100 < shrink09 w j ∧ 100 < shrink09 h j) := by
  intro fuel
  induction fuel with
  | zero => intro w h b tr hb; simp [shrinkFB] at hb
  | succ n ih =>
    intro w h b tr hb
    simp only [shrinkFB] at hb
    split at hb
    next hwh =>
      split at hb
      next b0 heq =>
        injection hb with hb1 hb2
        injection hb1 with hb1
        subst hb1
        refine ⟨1, le_refl 1, by simpa [shrink09] using heq, by omega, ?_⟩
        intro j hj
        have : j = 0 := by omega
        subst this
        simpa [shrink09] using hwh
      next heq =>
        injection hb with hb1 hb2
        have hrest : shrinkFB env img fmt minB maxB n (w * 9 / 10) (h * 9 / 10) =
            (some b, (shrinkFB env img fmt minB maxB n (w * 9 / 10) (h * 9 / 10)).2) := by
          rw [← hb1]
        obtain ⟨k2, hk1, hlad, hprev, hfloor⟩ := ih hrest
        rw [shrink09_shift, shrink09_shift] at hlad
        refine ⟨k2 + 1, by omega, hlad, ?_, ?_⟩
        · intro j hj1 hjk
          rcases j with _ | j2
          · omega
          rcases j2 with _ | j3
          · simpa [shrink09] using heq
          · have := hprev (j3 + 1) (by omega) (by omega)
            rwa [shrink09_shift, shrink09_shift] at this
        · intro j hj
          rcases j with _ | j2
          · simpa [shrink09] using hwh
          · have := hfloor j2 (by omega)
            rwa [shrink09_shift, shrink09_shift] at this
    next hwh => simp at hb

/-- C4, amended.  The for_both.py reduction behaves exactly as the claim
describes: it does nothing once either dimension is not above 100 pixels;
at each geometry its quality ladder is the descending 95, 90, ..., 5 and it
returns the first encoding of that ladder lying inside [min, max]; and any
successful result comes from the ladder after k applications (k at least 1)
of the 10% floor reduction to both dimensions, all earlier geometries having
failed their ladders while staying above the 100-pixel floor.  (The
image_resize.py reduction instead accepts the first encoding with length at
most max and only then compares against min; see the counterexample.) -/
theorem c4_amended_shrink_ladder (env : PILEnv) (img : Img) (fmt : Fmt) (minB maxB : ℚ) :
    (∀ fuel w h, ¬ (100 < w ∧ 100 < h) →
        shrinkFB env img fmt minB maxB fuel w h = (none, [])) ∧
    (∀ r b, qualLadderFB env r fmt minB maxB = some b →
        ∃ pre q post, qualsDesc = pre ++ q :: post ∧ b = env.save r fmt q ∧
          inRange minB maxB b ∧
          ∀ q2 ∈ pre, ¬ inRange minB maxB (env.save r fmt q2)) ∧
    (∀ fuel w h b tr, shrinkFB env img fmt minB maxB fuel w h = (some b, tr) →
        ∃ k, 1 ≤ k ∧
          qualLadderFB env (Img.resize img (shrink09 w k) (shrink09 h k)) fmt minB maxB =
            some b ∧
          (∀ j, 1 ≤ j → j < k →
            qualLadderFB env (Img.resize img (shrink09 w j) (shrink09 h j)) fmt minB maxB =
              none) ∧
          (∀ j, j < k → 100 < shrink09 w j ∧ 100 < shrink09 h j)) := by
  refine ⟨?_, ?_, ?_⟩
  · intro fuel w h hng
    cases fuel with
    | zero => simp [shrinkFB]
    | succ n => simp [shrinkFB, hng]
  · intro r b hb
    exact firstInRange_first hb
  · intro fuel w h b tr hb
    exact shrinkFB_geometry fuel hb

/-- C4 witness: in the quality-sensitive environment the quality ladder at
the first reduced geometry skips the 40-byte quality-95 encoding (below the
minimum) and returns the 60-byte quality-90 encoding, the first one inside
[50, 100]. -/
theorem c4_amended_shrink_ladder_witness :
    ∃ pre q post, qualsDesc = pre ++ q :: post ∧
      (List.replicate 60 0 : Bytes) =
        envQ.save (Img.resize (imgFor .PNG (200, 200) dataQ) 180 180) .PNG q ∧
      inRange 50 100 (List.replicate 60 0) ∧
      ∀ q2 ∈ pre,
        ¬ inRange 50 100 (envQ.save (Img.resize (imgFor .PNG (200, 200) dataQ) 180 180)
          .PNG q2) :=
  (c4_amended_shrink_ladder envQ (imgFor .PNG (200, 200) dataQ) .PNG 50 100).2.1
    (Img.resize (imgFor .PNG (200, 200) dataQ) 180 180) (List.replicate 60 0) (by decide)

theorem numChar_toUpper {c : Char} (h : c.isDigit = true ∨ c = '.') :
    c.toUpper = c ∧ c ≠ 'M' ∧ c ≠ 'K' := by
  rcases h with h | rfl
  · simp only [Char.isDigit, Bool.and_eq_true, decide_eq_true_eq] at h
    have h2 : c.toNat ≤ 57 := UInt32.toNat_le_of_le (by decide) h.2
    refine ⟨?_, ?_, ?_⟩
    · rw [Char.toUpper, if_neg]
      rintro ⟨h3, -⟩
      simp only [Char.toNat] at h2 h3
      omega
    · intro hM
      rw [hM] at h2
      exact absurd h2 (by decide)
    · intro hK
      rw [hK] at h2
      exact absurd h2 (by decide)
  · exact ⟨by decide, by decide, by decide⟩

theorem takeDigitsAux_split : ∀ l : List Char,
    ∃ ds, l = ds ++ (takeDigitsAux l).2.2 ∧ ∀ c ∈ ds, c.isDigit = true := by
  intro l
  induction l with
  | nil => exact ⟨[], by simp [takeDigitsAux], by simp⟩
  | cons c cs ih =>
    by_cases hc : c.isDigit = true
    · obtain ⟨ds, hds, hall⟩ := ih
      refine ⟨c :: ds, ?_, ?_⟩
      · simp only [takeDigitsAux, if_pos hc]
        simpa using hds
      · intro x hx
        rcases List.mem_cons.mp hx with rfl | hx2
        · exact hc
        · exact hall x hx2
    · exact ⟨[], by simp [takeDigitsAux, hc], by simp⟩

theorem parseFloatChars_chars {l : List Char} {v : ℚ} (h : parseFloatChars l = some v) :
    ∀ c ∈ l, c.isDigit = true ∨ c = '.' := by
  intro c hc
  obtain ⟨ds, hds, hall⟩ := takeDigitsAux_split l
  simp only [parseFloatChars] at h
  split at h
  next heq =>
    rw [heq, List.append_nil] at hds
    exact Or.inl (hall c (hds ▸ hc))
  next r2 heq =>
    split at h
    next hequ =>
      obtain ⟨ds2, hds2, hall2⟩ := takeDigitsAux_split r2
      rw [hequ, List.append_nil] at hds2
      rw [heq, hds2] at hds
      rw [hds] at hc
      rcases List.mem_append.mp hc with hc1 | hc2
      · exact Or.inl (hall c hc1)
      · rcases List.mem_cons.mp hc2 with rfl | hc3
        · exact Or.inr rfl
        · exact Or.inl (hall2 c hc3)
    next => exact absurd h (by simp)
  next => exact absurd h (by simp)

theorem replaceGo_skip (pat : List Char) :
    ∀ (xs : List Char) (k : Nat), xs.length ≤ k → replaceGo pat xs k = [] := by
  intro xs
  induction xs with
  | nil => intro k hk; cases k <;> simp [replaceGo]
  | cons c cs ih =>
    intro k hk
    match k with
    | k2 + 1 =>
      simp only [replaceGo]
      exact ih k2 (by simpa using hk)

theorem startsWithL_self : ∀ l : List Char, startsWithL l l = true := by
  intro l
  induction l with
  | nil => rfl
  | cons c cs ih => simp [startsWithL, ih]

theorem replaceGo_no_head (p0 : Char) (ps : List Char) :
    ∀ l : List Char, (∀ c ∈ l, c ≠ p0) → replaceGo (p0 :: ps) l 0 = l := by
  intro l
  induction l with
  | nil => intro _; rfl
  | cons c cs ih =>
    intro hl
    have hpc : (p0 == c) = false := beq_eq_false_iff_ne.mpr (Ne.symm (hl c (by simp)))
    simp only [replaceGo]
    rw [if_neg]
    · rw [ih (fun x hx => hl x (by simp [hx]))]
    · rintro ⟨-, hstart⟩
      simp [startsWithL, hpc] at hstart

theorem replaceGo_strip (p0 : Char) (ps : List Char) :
    ∀ l : List Char, (∀ c ∈ l, c ≠ p0) →
      replaceGo (p0 :: ps) (l ++ p0 :: ps) 0 = l := by
  intro l
  induction l with
  | nil =>
    intro _
    simp only [List.nil_append, replaceGo]
    rw [if_pos ⟨by simp, startsWithL_self _⟩]
    exact replaceGo_skip _ ps _ (by simp)
  | cons c cs ih =>
    intro hl
    have hpc : (p0 == c) = false := beq_eq_false_iff_ne.mpr (Ne.symm (hl c (by simp)))
    simp only [List.cons_append, replaceGo]
    rw [if_neg]
    · exact congrArg (fun x => c :: x) (ih (fun x hx => hl x (by simp [hx])))
    · rintro ⟨-, hstart⟩
      simp [startsWithL, hpc] at hstart

theorem hasSubAux_append (pat : List Char) : ∀ (pre suf : List Char),
    startsWithL pat suf = true → hasSubAux pat (pre ++ suf) = true := by
  intro pre
  induction pre with
  | nil =>
    intro suf h
    cases suf with
    | nil => simpa [hasSubAux] using h
    | cons c cs => simp [hasSubAux, h]
  | cons c cs ih =>
    intro suf h
    simp only [List.cons_append, hasSubAux, Bool.or_eq_true]
    exact Or.inr (ih suf h)

theorem hasSubAux_none (p0 : Char) (ps : List Char) :
    ∀ l : List Char, (∀ c ∈ l, c ≠ p0) → hasSubAux (p0 :: ps) l = false := by
  intro l
  induction l with
  | nil => simp [hasSubAux, startsWithL]
  | cons c cs ih =>
    intro hl
    have hpc : (p0 == c) = false := beq_eq_false_iff_ne.mpr (Ne.symm (hl c (by simp)))
    simp [hasSubAux, startsWithL, hpc, ih (fun x hx => hl x (by simp [hx]))]

/-- C8.  `convert_to_bytes("2MB")` is 2*1024*1024 and
`convert_to_bytes("500KB")` is 500*1024; in general, appending an uppercase
`MB` or `KB` to any numeric literal the (modelled) `float` accepts converts
to the number multiplied by 1024*1024 or by 1024 respectively. -/
theorem c8_convert_to_bytes_units :
    convert_to_bytes "2MB" = some 2097152 ∧
    convert_to_bytes "500KB" = some 512000 ∧
    ∀ (s : String) (v : ℚ), parsePyFloat s = some v →
      convert_to_bytes (s ++ "MB") = some (v * 1024 * 1024) ∧
      convert_to_bytes (s ++ "KB") = some (v * 1024) := by
  refine ⟨by decide, by decide, ?_⟩
  intro s v hv
  have hchars : ∀ c ∈ s.data, c.isDigit = true ∨ c = '.' := parseFloatChars_chars hv
  have hnM : ∀ c ∈ s.data, c ≠ 'M' := fun c hc => (numChar_toUpper (hchars c hc)).2.1
  have hnK : ∀ c ∈ s.data, c ≠ 'K' := fun c hc => (numChar_toUpper (hchars c hc)).2.2
  have hup : s.data.map Char.toUpper = s.data := by
    have h2 : s.data.map Char.toUpper = s.data.map id :=
      List.map_congr_left (fun c hc => (numChar_toUpper (hchars c hc)).1)
    simpa using h2
  constructor
  · have hdata : (s ++ "MB").data = s.data ++ ['M', 'B'] := String.data_append s "MB"
    have hrm1 : (pyRemoveAll (s ++ "MB") "MB").data = s.data := by
      show replaceGo ['M', 'B'] (s ++ "MB").data 0 = s.data
      rw [hdata]
      exact replaceGo_strip 'M' ['B'] s.data hnM
    have hparse : parsePyFloat (pyRemoveAll (pyRemoveAll (s ++ "MB") "MB") "KB") = some v := by
      show parseFloatChars (replaceGo ['K', 'B'] (pyRemoveAll (s ++ "MB") "MB").data 0) = some v
      rw [hrm1, replaceGo_no_head 'K' ['B'] s.data hnK]
      exact hv
    have hcmb : containsSub (pyUpper (s ++ "MB")) "MB" = true := by
      show hasSubAux ['M', 'B'] ((s ++ "MB").data.map Char.toUpper) = true
      rw [hdata, List.map_append, hup]
      exact hasSubAux_append _ _ _ (startsWithL_self _)
    simp only [convert_to_bytes, hparse, hcmb, if_true]
    simp [qmul_eq]
  · have hdata : (s ++ "KB").data = s.data ++ ['K', 'B'] := String.data_append s "KB"
    have hallM : ∀ c ∈ s.data ++ ['K', 'B'], c ≠ 'M' := by
      intro c hc
      rcases List.mem_append.mp hc with h2 | h2
      · exact hnM c h2
      · rcases List.mem_cons.mp h2 with rfl | h3
        · decide
        · rcases List.mem_cons.mp h3 with rfl | h4
          · decide
          · simp at h4
    have hrm1 : (pyRemoveAll (s ++ "KB") "MB").data = s.data ++ ['K', 'B'] := by
      show replaceGo ['M', 'B'] (s ++ "KB").data 0 = s.data ++ ['K', 'B']
      rw [hdata]
      exact replaceGo_no_head 'M' ['B'] _ hallM
    have hparse : parsePyFloat (pyRemoveAll (pyRemoveAll (s ++ "KB") "MB") "KB") = some v := by
      show parseFloatChars (replaceGo ['K', 'B'] (pyRemoveAll (s ++ "KB") "MB").data 0) = some v
      rw [hrm1]
      rw [replaceGo_strip 'K' ['B'] s.data hnK]
      exact hv
    have hupK : (pyUpper (s ++ "KB")).data = s.data ++ ['K', 'B'] := by
      show (s ++ "KB").data.map Char.toUpper = s.data ++ ['K', 'B']
      rw [hdata, List.map_append, hup]
      rfl
    have hcmb : containsSub (pyUpper (s ++ "KB")) "MB" = false := by
      show hasSubAux ['M', 'B'] (pyUpper (s ++ "KB")).data = false
      rw [hupK]
      exact hasSubAux_none 'M' ['B'] _ hallM
    have hckb : containsSub (pyUpper (s ++ "KB")) "KB" = true := by
      show hasSubAux ['K', 'B'] (pyUpper (s ++ "KB")).data = true
      rw [hupK]
      exact hasSubAux_append _ _ _ (startsWithL_self _)
    simp only [convert_to_bytes, hparse, hcmb, hckb, if_true, Bool.false_eq_true, if_false]
    simp [qmul_eq]

/-- C8 witness: the general unit theorem applied to the numeric literal 7. -/
theorem c8_convert_to_bytes_units_witness :
    convert_to_bytes ("7" ++ "MB") = some ((7 : ℚ) * 1024 * 1024) ∧
    convert_to_bytes ("7" ++ "KB") = some ((7 : ℚ) * 1024) :=
  c8_convert_to_bytes_units.2.2 "7" 7 (by decide)

theorem roundHalfEven_abs (x : ℚ) : |x - ((roundHalfEven x : ℤ) : ℚ)| ≤ 1 / 2 := by
  simp only [roundHalfEven, qsub_eq, qdiv_eq]
  have h1 : ((⌊x⌋ : ℤ) : ℚ) ≤ x := Int.floor_le x
  have h2 : x < ((⌊x⌋ : ℤ) : ℚ) + 1 := Int.lt_floor_add_one x
  split_ifs with ha hb hc
  · rw [abs_le]
    constructor <;> linarith
  · rw [abs_le]
    constructor <;> push_cast <;> linarith
  · rw [abs_le]
    constructor <;> linarith
  · rw [abs_le]
    constructor <;> push_cast <;> linarith

/-- C9.  `get_size_in_appropriate_unit` displays 1536 KiB as `"1.50MB"` and
500 KiB as `"500.00KB"`; in general every byte count of at least 1024*1024
(the 1024 KB threshold) is displayed in MB and everything below in KB, and
the displayed number is the KB or MB value rounded to two decimal places
(the rendered hundredths differ from the exact value by at most half a
hundredth). -/
theorem c9_display_size :
    get_size_in_appropriate_unit (1536 * 1024) = "1.50MB" ∧
    get_size_in_appropriate_unit (500 * 1024) = "500.00KB" ∧
    ∀ n : Nat,
      (1024 * 1024 ≤ n →
        ∃ r : ℤ, get_size_in_appropriate_unit n = fmt2core r ++ "MB" ∧
          |((n : ℚ)) / 1024 / 1024 * 100 - ((r : ℚ))| ≤ 1 / 2) ∧
      (n < 1024 * 1024 →
        ∃ r : ℤ, get_size_in_appropriate_unit n = fmt2core r ++ "KB" ∧
          |((n : ℚ)) / 1024 * 100 - ((r : ℚ))| ≤ 1 / 2) := by
  refine ⟨by decide, by decide, ?_⟩
  intro n
  constructor
  · intro hn
    have hcond : (1024 : ℚ) ≤ qdiv ((n : ℚ)) 1024 := by
      rw [qdiv_eq, le_div_iff₀ (by norm_num)]
      have : ((1024 * 1024 : ℕ) : ℚ) ≤ ((n : ℕ) : ℚ) := by exact_mod_cast hn
      push_cast at this ⊢
      linarith
    refine ⟨roundHalfEven (qmul (qdiv (qdiv ((n : ℚ)) 1024) 1024) 100), ?_, ?_⟩
    · unfold get_size_in_appropriate_unit fmt2
      rw [if_pos hcond]
    · have harg : qmul (qdiv (qdiv ((n : ℚ)) 1024) 1024) 100 =
          ((n : ℚ)) / 1024 / 1024 * 100 := by
        simp [qmul_eq, qdiv_eq]
      rw [harg]
      exact roundHalfEven_abs _
  · intro hn
    have hcond : ¬ ((1024 : ℚ) ≤ qdiv ((n : ℚ)) 1024) := by
      rw [qdiv_eq, not_le, div_lt_iff₀ (by norm_num)]
      have : ((n : ℕ) : ℚ) < ((1024 * 1024 : ℕ) : ℚ) := by exact_mod_cast hn
      push_cast at this ⊢
      linarith
    refine ⟨roundHalfEven (qmul (qdiv ((n : ℚ)) 1024) 100), ?_, ?_⟩
    · unfold get_size_in_appropriate_unit fmt2
      rw [if_neg hcond]
    · have harg : qmul (qdiv ((n : ℚ)) 1024) 100 = ((n : ℚ)) / 1024 * 100 := by
        simp [qmul_eq, qdiv_eq]
      rw [harg]
      exact roundHalfEven_abs _

/-- C9 witness: the unit-selection and rounding statement applied to a
2 MiB byte count. -/
theorem c9_display_size_witness :
    ∃ r : ℤ, get_size_in_appropriate_unit (2 * 1024 * 1024) = fmt2core r ++ "MB" ∧
      |(((2 * 1024 * 1024 : ℕ)) : ℚ) / 1024 / 1024 * 100 - ((r : ℚ))| ≤ 1 / 2 :=
  (c9_display_size.2.2 (2 * 1024 * 1024)).1 (by norm_num)

/-- C2 witness: with the constant 10-byte encoder and a 6-byte original in
[4, 8], image_resize.py returns the quality-95 re-encoding and for_both.py
returns `None`. -/
theorem c2_amended_in_range_reencode_witness :
    Rsz.process_image envK (List.replicate 6 0 : Bytes) 4 8 "PNG" =
      .ok (some (envK.save (imgFor .PNG (envK.dims (List.replicate 6 0)) (List.replicate 6 0))
        .PNG 95)) ∧
    ForBoth.process_image envK (List.replicate 6 0 : Bytes) 4 8 "PNG" = .ok none :=
  c2_amended_in_range_reencode envK (List.replicate 6 0) 4 8 "PNG" .PNG rfl (by decide)
    (by decide)

end ImgBot
